import Mathlib

/-!
Verification of the triangle-geometry core of the SmileCloud home task
(`src/utils/geometry.ts` and `src/utils/fitToBox.ts`).

The JavaScript `number` type is modelled exactly: by `ℚ` wherever the source
only uses field operations and comparisons (so every branch stays decidable
and every definition executable), and by `ℝ` for the functions built on
`Math.hypot` / `Math.atan2` / `Math.acos` / `Math.cos` / `Math.sin`.
JavaScript strings are modelled as `List Char`.
-/

/-- Model of the source's `Point = { x: number; y: number }`, parametrised by
the number model (`ℚ` for the decidable fragment, `ℝ` for the trig fragment). -/
structure Point (α : Type) where
  x : α
  y : α
deriving DecidableEq

/-- Points with exactly-modelled (rational) coordinates. -/
abbrev QPoint := Point ℚ

/-- Model of the source's `TriangleForm = { a: Point; b: Point; c: Point }`. -/
structure TriangleForm where
  a : QPoint
  b : QPoint
  c : QPoint
deriving DecidableEq

/-- Source `DEFAULT_POINTS`: the fixed fallback triangle. -/
def DEFAULT_POINTS : TriangleForm :=
  { a := ⟨100, 100⟩, b := ⟨700, 120⟩, c := ⟨420, 650⟩ }

/-- Source `triangleArea`: `|xa(yb−yc) + xb(yc−ya) + xc(ya−yb)| / 2`. -/
def triangleArea (vertexA vertexB vertexC : QPoint) : ℚ :=
  |vertexA.x * (vertexB.y - vertexC.y)
    + vertexB.x * (vertexC.y - vertexA.y)
    + vertexC.x * (vertexA.y - vertexB.y)| / 2

/-- Source `isNonCollinear`: `triangleArea(a,b,c) > epsilon` (default `1e-6`). -/
def isNonCollinear (vertexA vertexB vertexC : QPoint)
    (epsilon : ℚ := 1/1000000) : Prop :=
  triangleArea vertexA vertexB vertexC > epsilon

instance (a b c : QPoint) (eps : ℚ) : Decidable (isNonCollinear a b c eps) :=
  inferInstanceAs (Decidable (_ > _))

/-- Source `SideKind`. -/
inductive SideKind where
  | Equilateral
  | Isosceles
  | Scalene
deriving DecidableEq

/-- Source `AngleKind`. -/
inductive AngleKind where
  | Right
  | Acute
  | Obtuse
deriving DecidableEq

/-- Source `sideType`: `eq(x,y)` is `|x − y| < eps`; Equilateral is checked as
`eq(a,b) && eq(b,c)`, Isosceles as `eq(a,b) || eq(b,c) || eq(c,a)`. -/
def sideType (a b c : ℚ) (eps : ℚ := 1/1000000) : SideKind :=
  if |a - b| < eps ∧ |b - c| < eps then .Equilateral
  else if |a - b| < eps ∨ |b - c| < eps ∨ |c - a| < eps then .Isosceles
  else .Scalene

/-- Model of `[a, b, c].sort((x, y) => x - y)`: the three values in ascending
order, as a triple `(short1, short2, long)`. -/
def sort3 (a b c : ℚ) : ℚ × ℚ × ℚ :=
  if a ≤ b then
    if b ≤ c then (a, b, c)
    else if a ≤ c then (a, c, b)
    else (c, a, b)
  else
    if a ≤ c then (b, a, c)
    else if b ≤ c then (b, c, a)
    else (c, b, a)

/-- Source `angleType`: sort ascending to `S1 ≤ S2 ≤ L`, compare `L²` with
`S1² + S2²` within `eps` for Right, else Acute / Obtuse by strict comparison. -/
def angleType (a b c : ℚ) (eps : ℚ := 1/1000000) : AngleKind :=
  let s := sort3 a b c
  let lhs := s.2.2 * s.2.2
  let rhs := s.1 * s.1 + s.2.1 * s.2.1
  if |lhs - rhs| < eps then .Right
  else if lhs < rhs then .Acute
  else .Obtuse

/-- Squared Euclidean distance. The source computes
`dist(p,q) = Math.hypot(qx−px, qy−py)` and only ever compares it against a
threshold; comparisons are carried out on squares (see `distSq_threshold`,
which shows `m < √(distSq p q) ↔ m·|m| < distSq p q`, so the model's guard
`m·|m| < distSq p q` is exactly the source's `dist(p,q) > m`). -/
def distSq (p q : QPoint) : ℚ :=
  (q.x - p.x) ^ 2 + (q.y - p.y) ^ 2

/-- Source-internal `rnd(min, max) = Math.random() * (max − min) + min`, with
the `Math.random()` draw `r ∈ [0, 1)` made an explicit argument. -/
def rnd (lo hi r : ℚ) : ℚ :=
  r * (hi - lo) + lo

/-- The loop of `randomTriangleInBox`: `tries` draws remain, `i` indexes the
stream of `Math.random()` results (six consumed per iteration: x and y of each
of the three candidate points). A draw is accepted when all three pairwise
distances exceed `minSide` and the points are non-collinear; exhaustion
returns `DEFAULT_POINTS`. -/
def randomTriangleLoop (width height margin minSide : ℚ) (draws : ℕ → ℚ) :
    ℕ → ℕ → TriangleForm
  | 0, _ => DEFAULT_POINTS
  | Nat.succ tries, i =>
    let a : QPoint := ⟨rnd margin (width - margin) (draws (6 * i)),
                       rnd margin (height - margin) (draws (6 * i + 1))⟩
    let b : QPoint := ⟨rnd margin (width - margin) (draws (6 * i + 2)),
                       rnd margin (height - margin) (draws (6 * i + 3))⟩
    let c : QPoint := ⟨rnd margin (width - margin) (draws (6 * i + 4)),
                       rnd margin (height - margin) (draws (6 * i + 5))⟩
    if minSide * |minSide| < distSq a b ∧ minSide * |minSide| < distSq b c
        ∧ minSide * |minSide| < distSq c a ∧ isNonCollinear a b c then
      ⟨a, b, c⟩
    else
      randomTriangleLoop width height margin minSide draws tries (i + 1)

/-- Source `randomTriangleInBox` (defaults 800, 800, 60, 80, 200), with the
`Math.random()` stream passed explicitly as `draws`. -/
def randomTriangleInBox (width height margin minSide : ℚ) (maxTries : ℕ)
    (draws : ℕ → ℚ) : TriangleForm :=
  randomTriangleLoop width height margin minSide draws maxTries 0

/-- `Math.min` over a list (the source spreads the coordinate list into
`Math.min(...xs)`; the empty case, where JavaScript yields `Infinity`, is
outside this model — every use below is on a non-empty list). -/
def minList : List ℚ → ℚ
  | [] => 0
  | x :: xs => xs.foldl min x

/-- `Math.max` over a list (same remarks as `minList`). -/
def maxList : List ℚ → ℚ
  | [] => 0
  | x :: xs => xs.foldl max x

/-- Result record of `fitToBox`. -/
structure FitResult where
  mapped : List QPoint
  scale : ℚ
deriving DecidableEq

/- ### String layer: `buildDisplayQuery` / `parseDisplayQuery`

JavaScript strings are modelled as `List Char`.  The pieces of the platform
that the two functions lean on are modelled at the level the source uses
them:

* number → string (template literals): a decimal numeral that `Number`
  parses back to the same value — the defining property of ECMAScript
  `ToString` on finite doubles (every finite double has a terminating
  decimal expansion; what is modelled is plain sign/digits/point/digits
  output, not the shortest-representation choice, which parses identically);
* string → number (`Number(s)` plus the `Number.isFinite` guard): the
  decimal subset of the `StringNumericLiteral` grammar — optional
  whitespace, optional sign, digits with an optional fraction part; the
  whitespace-only string coerces to `0`; anything outside the subset
  (exponents, hex, `Infinity`) is mapped to "not a finite number" (`none`);
* `URLSearchParams`: leading `?` stripped, split on `&`, empty pieces
  skipped, each piece split at its first `=`, `+` and `%hh` decoded
  (single-byte escapes), `get` returning the first pair with the given
  key. -/

/-- One digit `d < 10` as a character. -/
def digitToChar (d : ℕ) : Char :=
  Char.ofNat (48 + d)

/-- Numeric value of a digit character. -/
def charToDigit (c : Char) : ℕ :=
  c.toNat - 48

/-- Is `c` one of '0'..'9'? -/
def isDigitC (c : Char) : Bool :=
  48 ≤ c.toNat && c.toNat ≤ 57

/-- A natural number printed in decimal, most significant digit first. -/
def natToChars (n : ℕ) : List Char :=
  if n = 0 then ['0'] else ((Nat.digits 10 n).map digitToChar).reverse

/-- `natToChars`, left-padded with zeros to width `k`. -/
def natToCharsPad (k : ℕ) (n : ℕ) : List Char :=
  List.replicate (k - (natToChars n).length) '0' ++ natToChars n

/-- Decimal value of a digit string (the accumulator fold `Number` performs
on the integer and fraction digit runs). -/
def charsToNat (l : List Char) : ℕ :=
  l.foldl (fun acc c => acc * 10 + charToDigit c) 0

/-- The whitespace characters `Number` trims. -/
def isWS (c : Char) : Bool :=
  c = ' ' || c = '\t' || c = '\n' || c = '\r'

/-- Trim leading and trailing whitespace. -/
def trimWS (l : List Char) : List Char :=
  ((l.dropWhile isWS).reverse.dropWhile isWS).reverse

/-- Split off the maximal leading run of digit characters. -/
def takeDigits : List Char → List Char × List Char
  | [] => ([], [])
  | c :: cs =>
    if isDigitC c then
      ((takeDigits cs).1.cons c, (takeDigits cs).2)
    else ([], c :: cs)

/-- Unsigned part of the `Number` grammar: `digits [. digits]` with at least
one digit overall. -/
def parseUnsigned (l : List Char) : Option ℚ :=
  let ip := takeDigits l
  if ip.2 = [] then
    if ip.1 = [] then none else some (charsToNat ip.1)
  else if ip.2.head? = some '.' then
    let fp := takeDigits ip.2.tail
    if fp.2 = [] then
      if ip.1 = [] ∧ fp.1 = [] then none
      else some ((charsToNat ip.1 : ℚ) + (charsToNat fp.1 : ℚ) / 10 ^ fp.1.length)
    else none
  else none

/-- Optional sign in front of the unsigned part. -/
def parseSigned (l : List Char) : Option ℚ :=
  if l.head? = some '-' then (parseUnsigned l.tail).map (fun q => -q)
  else if l.head? = some '+' then parseUnsigned l.tail
  else parseUnsigned l

/-- `Number(s)` followed by the `Number.isFinite` test: `some q` when the
string coerces to the finite number `q`, `none` otherwise (`NaN`/infinite). -/
def parseJSNumber (l : List Char) : Option ℚ :=
  let t := trimWS l
  if t = [] then some 0 else parseSigned t

/-- A rational has a terminating decimal expansion iff its reduced
denominator divides a power of ten; `10 ^ q.den` is always a large enough
power.  Every finite IEEE double (denominator a power of two) satisfies
this, so the predicate is the model-side reading of "finite coordinate". -/
def TerminatingDecimal (q : ℚ) : Prop :=
  (q.den : ℤ) ∣ 10 ^ q.den

instance (q : ℚ) : Decidable (TerminatingDecimal q) :=
  inferInstanceAs (Decidable (_ ∣ _))

/-- The unsigned part of `ToString`: integer digits and, for a non-integer,
a point followed by `q.den` fraction digits. -/
def magnitudeChars (q : ℚ) : List Char :=
  if q.den = 1 then natToChars q.num.natAbs
  else
    let k := q.den
    let N := q.num.natAbs * 10 ^ k / q.den
    natToChars (N / 10 ^ k) ++ ('.' :: natToCharsPad k (N % 10 ^ k))

/-- ECMAScript `ToString` on the model numbers: sign and magnitude. -/
def numToString (q : ℚ) : List Char :=
  (if q.num < 0 then ['-'] else []) ++ magnitudeChars q

/-- Split a string on a separator character (the `String.prototype.split`
the source applies to the `x,y` payload). -/
def splitOnC (sep : Char) : List Char → List (List Char)
  | [] => [[]]
  | c :: cs =>
    if c = sep then [] :: splitOnC sep cs
    else
      match splitOnC sep cs with
      | [] => [[c]]
      | p :: ps => (c :: p) :: ps

/-- Split a `key=value` piece at its first `=` (no `=`: empty value). -/
def splitFirstEq : List Char → List Char × List Char
  | [] => ([], [])
  | c :: cs =>
    if c = '=' then ([], cs)
    else ((splitFirstEq cs).1.cons c, (splitFirstEq cs).2)

/-- Hex digit? -/
def isHexC (c : Char) : Bool :=
  (48 ≤ c.toNat && c.toNat ≤ 57) || (65 ≤ c.toNat && c.toNat ≤ 70)
    || (97 ≤ c.toNat && c.toNat ≤ 102)

/-- Value of a hex digit. -/
def hexVal (c : Char) : ℕ :=
  if c.toNat ≤ 57 then c.toNat - 48
  else if c.toNat ≤ 70 then c.toNat - 55
  else c.toNat - 87

/-- `application/x-www-form-urlencoded` decoding: `+` to space, `%hh` to the
escaped character (single-byte escapes), malformed escapes kept literally. -/
def pdecode : List Char → List Char
  | [] => []
  | c :: cs =>
    if c = '+' then ' ' :: pdecode cs
    else if c = '%' then
      match h : cs with
      | c1 :: c2 :: cs2 =>
        if isHexC c1 && isHexC c2 then
          Char.ofNat (16 * hexVal c1 + hexVal c2) :: pdecode cs2
        else '%' :: pdecode cs
      | _ => '%' :: pdecode cs
    else c :: pdecode cs
termination_by l => l.length
decreasing_by all_goals simp_all [List.length_cons] <;> omega

/-- The key/value pairs a `URLSearchParams` built from `search` holds. -/
def urlPairs (search : List Char) : List (List Char × List Char) :=
  let s := if search.head? = some '?' then search.tail else search
  (splitOnC '&' s).filterMap (fun piece =>
    if piece = [] then none
    else some (pdecode (splitFirstEq piece).1, pdecode (splitFirstEq piece).2))

/-- `URLSearchParams.get`: value of the first pair with the given key,
`null` (`none`) when the key is absent. -/
def urlGet (search : List Char) (key : List Char) : Option (List Char) :=
  ((urlPairs search).find? (fun kv => kv.1 = key)).map (fun kv => kv.2)

/-- The inner `parsePoint` of `parseDisplayQuery`: `qs.get(key)`, the
falsy-guard on the raw value (absent key or empty string), `split(",")`
destructured into its first two elements (`Number(undefined)` is `NaN`, so a
single-element split yields no point), both coerced and finiteness-checked. -/
def parsePoint (search : List Char) (key : List Char) : Option QPoint :=
  match urlGet search key with
  | none => none
  | some raw =>
    if raw = [] then none
    else
      match splitOnC ',' raw with
      | xs :: ys :: _ =>
        match parseJSNumber xs, parseJSNumber ys with
        | some xv, some yv => some ⟨xv, yv⟩
        | _, _ => none
      | _ => none

/-- Result record of `parseDisplayQuery`: `{ a?: Point; b?: Point; c?: Point }`. -/
structure ParsedQuery where
  a : Option QPoint
  b : Option QPoint
  c : Option QPoint
deriving DecidableEq

/-- Source `parseDisplayQuery`. -/
def parseDisplayQuery (search : List Char) : ParsedQuery :=
  { a := parsePoint search ['a'],
    b := parsePoint search ['b'],
    c := parsePoint search ['c'] }

/-- Source `buildDisplayQuery`: `?a=x,y&b=x,y&c=x,y` with each coordinate
rendered by `ToString` (template literal). -/
def buildDisplayQuery (a b c : QPoint) : List Char :=
  let enc := fun (p : QPoint) => numToString p.x ++ (',' :: numToString p.y)
  '?' :: ('a' :: '=' :: enc a) ++ ('&' :: 'b' :: '=' :: enc b)
    ++ ('&' :: 'c' :: '=' :: enc c)

/- ### Real-valued layer: the trigonometric functions of `geometry.ts`

`Math.hypot`, `Math.acos`, `Math.atan2`, `Math.cos`, `Math.sin` are modelled
by their exact real counterparts (`Math.atan2(y, x)` is the principal
argument of the complex number `x + y·i`). -/

/-- Points with real coordinates, for the trigonometric fragment. -/
abbrev RPoint := Point ℝ

/-- Source `vectorBetween`. -/
def vectorBetween (from1 to1 : RPoint) : RPoint :=
  ⟨to1.x - from1.x, to1.y - from1.y⟩

/-- Source `vectorLength`: `Math.hypot(v.x, v.y)`. -/
noncomputable def vectorLength (v : RPoint) : ℝ :=
  Real.sqrt (v.x ^ 2 + v.y ^ 2)

/-- Source `dotProduct`. -/
def dotProduct (u v : RPoint) : ℝ :=
  u.x * v.x + u.y * v.y

/-- Source `normalized`: `length || 1` substitutes 1 for a zero length (the
zero vector is the only vector of length 0, and `NaN` cannot arise in the
exact model), then divides componentwise. -/
noncomputable def normalized (v : RPoint) : RPoint :=
  let length := if vectorLength v = 0 then 1 else vectorLength v
  ⟨v.x / length, v.y / length⟩

/-- Source `angleAtVertex`: `acos(clamp(dot(ab,ac) / (|ab|·|ac|), -1, 1))`. -/
noncomputable def angleAtVertex (vertexA vertexB vertexC : RPoint) : ℝ :=
  let ab := vectorBetween vertexA vertexB
  let ac := vectorBetween vertexA vertexC
  let cosTheta := dotProduct ab ac / (vectorLength ab * vectorLength ac)
  Real.arccos (max (-1) (min 1 cosTheta))

/-- `Math.atan2(y, x)`: the principal argument of `x + y·i`, in `(−π, π]`. -/
noncomputable def atan2 (y x : ℝ) : ℝ :=
  Complex.arg ⟨x, y⟩

/-- The two `while` loops of `angleArcPathAt` bring the difference of two
`atan2` results back into `(−π, π]` by adding or subtracting `2π`.  The
difference of two principal arguments lies in `(−2π, 2π)`, so each loop body
runs at most once; the two conditionals are those single iterations. -/
noncomputable def sweepNorm (s : ℝ) : ℝ :=
  if s ≤ -Real.pi then s + 2 * Real.pi
  else if s > Real.pi then s - 2 * Real.pi
  else s

/-- The sign-removed normalized sweep at a vertex: the quantity
`angleArcPathAt` compares against `1e-3`. -/
noncomputable def arcSweep (vertexA vertexB vertexC : RPoint) : ℝ :=
  let ab := vectorBetween vertexA vertexB
  let ac := vectorBetween vertexA vertexC
  |sweepNorm (atan2 ac.y ac.x - atan2 ab.y ab.x)|

/-- The arc descriptor held in the SVG path string
`M start A r r 0 0 1 end` that `angleArcPathAt` returns. -/
structure Arc where
  arcStart : RPoint
  arcEnd : RPoint
  radius : ℝ

/-- Source `angleArcPathAt`: start/end angles by `atan2`, sweep normalized
into `(−π, π]`, start and end swapped when the sweep is negative, the empty
string (`none`) under `1e-3`, else the arc from
`vertex + radius·(cos, sin)(startAngle)` to the same at `endAngle`. -/
noncomputable def angleArcPathAt (vertexA vertexB vertexC : RPoint)
    (radius : ℝ) : Option Arc :=
  let ab := vectorBetween vertexA vertexB
  let ac := vectorBetween vertexA vertexC
  let startAngle := atan2 ab.y ab.x
  let endAngle := atan2 ac.y ac.x
  let sweep1 := sweepNorm (endAngle - startAngle)
  let s := if sweep1 < 0 then endAngle else startAngle
  let e := if sweep1 < 0 then startAngle else endAngle
  let sweep := if sweep1 < 0 then -sweep1 else sweep1
  if sweep < 1/1000 then none
  else some
    { arcStart := ⟨vertexA.x + radius * Real.cos s, vertexA.y + radius * Real.sin s⟩,
      arcEnd := ⟨vertexA.x + radius * Real.cos e, vertexA.y + radius * Real.sin e⟩,
      radius := radius }

/-- Source `angleBisectorPoint`: the point `distance` along the normalized
sum of the two unit direction vectors. -/
noncomputable def angleBisectorPoint (vertexA vertexB vertexC : RPoint)
    (distance : ℝ) : RPoint :=
  let dirAB := normalized (vectorBetween vertexA vertexB)
  let dirAC := normalized (vectorBetween vertexA vertexC)
  let bisector := normalized ⟨dirAB.x + dirAC.x, dirAB.y + dirAC.y⟩
  ⟨vertexA.x + bisector.x * distance, vertexA.y + bisector.y * distance⟩

/-- `triangleArea` on real points (the same shoelace formula). -/
noncomputable def triangleAreaR (vertexA vertexB vertexC : RPoint) : ℝ :=
  |vertexA.x * (vertexB.y - vertexC.y)
    + vertexB.x * (vertexC.y - vertexA.y)
    + vertexC.x * (vertexA.y - vertexB.y)| / 2

/-- `isNonCollinear` on real points. -/
def isNonCollinearR (vertexA vertexB vertexC : RPoint)
    (epsilon : ℝ := 1/1000000) : Prop :=
  triangleAreaR vertexA vertexB vertexC > epsilon

/-- Source `distance`: `Math.hypot(qx−px, qy−py)`. -/
noncomputable def distR (p q : RPoint) : ℝ :=
  Real.sqrt ((q.x - p.x) ^ 2 + (q.y - p.y) ^ 2)

/-- A real point as a vector of `EuclideanSpace ℝ (Fin 2)`, to connect the
source's vector arithmetic with Mathlib's inner-product geometry. -/
noncomputable def toE2 (p : RPoint) : EuclideanSpace ℝ (Fin 2) :=
  (WithLp.equiv 2 (Fin 2 → ℝ)).symm ![p.x, p.y]

/-- Source `fitToBox` (`src/utils/fitToBox.ts`): bounding box, extents floored
to 1, uniform scale, per-axis map `(coord − min) · scale + padding`. -/
def fitToBox (points : List QPoint) (size : ℚ := 800) (padding : ℚ := 32) :
    FitResult :=
  let xs := points.map (fun p => p.x)
  let ys := points.map (fun p => p.y)
  let minX := minList xs
  let maxX := maxList xs
  let minY := minList ys
  let maxY := maxList ys
  let width := max 1 (maxX - minX)
  let height := max 1 (maxY - minY)
  let scale := min ((size - 2 * padding) / width) ((size - 2 * padding) / height)
  { mapped := points.map (fun p =>
      ⟨(p.x - minX) * scale + padding, (p.y - minY) * scale + padding⟩),
    scale := scale }


/- ### Helper lemmas -/

theorem foldl_min_le_init (l : List ℚ) (a : ℚ) : l.foldl min a ≤ a := by
  induction l generalizing a with
  | nil => simp
  | cons x xs ih => exact le_trans (ih (min a x)) (min_le_left a x)

theorem foldl_min_le_mem {x : ℚ} (l : List ℚ) (a : ℚ) (h : x ∈ l) :
    l.foldl min a ≤ x := by
  induction l generalizing a with
  | nil => cases h
  | cons y ys ih =>
    rcases List.mem_cons.1 h with rfl | hmem
    · exact le_trans (foldl_min_le_init ys (min a x)) (min_le_right a x)
    · exact ih (min a y) hmem

theorem minList_le {x : ℚ} {l : List ℚ} (h : x ∈ l) : minList l ≤ x := by
  match l with
  | z :: zs =>
    rcases List.mem_cons.1 h with rfl | hmem
    · exact foldl_min_le_init zs x
    · exact foldl_min_le_mem zs z hmem

theorem init_le_foldl_max (l : List ℚ) (a : ℚ) : a ≤ l.foldl max a := by
  induction l generalizing a with
  | nil => simp
  | cons x xs ih => exact le_trans (le_max_left a x) (ih (max a x))

theorem mem_le_foldl_max {x : ℚ} (l : List ℚ) (a : ℚ) (h : x ∈ l) :
    x ≤ l.foldl max a := by
  induction l generalizing a with
  | nil => cases h
  | cons y ys ih =>
    rcases List.mem_cons.1 h with rfl | hmem
    · exact le_trans (le_max_right a x) (init_le_foldl_max ys (max a x))
    · exact ih (max a y) hmem

theorem le_maxList {x : ℚ} {l : List ℚ} (h : x ∈ l) : x ≤ maxList l := by
  match l with
  | z :: zs =>
    rcases List.mem_cons.1 h with rfl | hmem
    · exact init_le_foldl_max zs x
    · exact mem_le_foldl_max zs z hmem

theorem sort3_sorted (a b c : ℚ) :
    (sort3 a b c).1 ≤ (sort3 a b c).2.1 ∧ (sort3 a b c).2.1 ≤ (sort3 a b c).2.2 := by
  unfold sort3
  split_ifs <;> constructor <;> simp <;> linarith

/- ### Claim theorems -/

/-- C9.  `triangleArea` is invariant under both cyclic rotations and order
reflections of its three arguments, and is always non-negative. -/
theorem triangleArea_perm_invariant (a b c : QPoint) :
    triangleArea a b c = triangleArea b c a ∧
    triangleArea a b c = triangleArea c a b ∧
    triangleArea a b c = triangleArea a c b ∧
    triangleArea a b c = triangleArea b a c ∧
    triangleArea a b c = triangleArea c b a ∧
    0 ≤ triangleArea a b c := by
  have habs : ∀ q r : ℚ, q = r → |q| / 2 = |r| / 2 := by
    intro q r h; rw [h]
  have habsneg : ∀ q r : ℚ, q = -r → |q| / 2 = |r| / 2 := by
    intro q r h; rw [h, abs_neg]
  unfold triangleArea
  refine ⟨habs _ _ (by ring), habs _ _ (by ring), habsneg _ _ (by ring),
    habsneg _ _ (by ring), habsneg _ _ (by ring), by positivity⟩

/-- C5, counterexample.  At lengths `(0, 9e-7, 18e-7)` with `eps = 1e-6`, one
pair (indeed two) of sides is equal within `eps` while not all three pairwise
differences are below `eps`, so the claim requires Isosceles; the code checks
Equilateral as `eq(a,b) && eq(b,c)` only and returns Equilateral. -/
theorem sideType_claim_counterexample :
    |(0 : ℚ) - 9/10000000| < 1/1000000 ∧
    |(9/10000000 : ℚ) - 18/10000000| < 1/1000000 ∧
    ¬(|(0 : ℚ) - 18/10000000| < 1/1000000) ∧
    sideType 0 (9/10000000) (18/10000000) (1/1000000) = SideKind.Equilateral ∧
    sideType 0 (9/10000000) (18/10000000) (1/1000000) ≠ SideKind.Isosceles := by
  refine ⟨by norm_num [abs_lt], by norm_num [abs_lt], by norm_num [abs_lt], ?_, ?_⟩
  · unfold sideType
    norm_num [abs_lt]
  · unfold sideType
    norm_num [abs_lt]
    decide

/-- C5, amended.  `sideType` returns Equilateral iff the two checked pairs
`(a,b)` and `(b,c)` are both equal within `eps` (the pair `(a,c)` is not
consulted); Isosceles iff not that and at least one of the three pairs is
equal within `eps`; Scalene iff no pair is equal within `eps` — and the three
example classifications of the claim hold. -/
theorem sideType_spec (a b c eps : ℚ) :
    (sideType a b c eps = SideKind.Equilateral ↔ |a - b| < eps ∧ |b - c| < eps) ∧
    (sideType a b c eps = SideKind.Isosceles ↔
      ¬(|a - b| < eps ∧ |b - c| < eps) ∧
        (|a - b| < eps ∨ |b - c| < eps ∨ |c - a| < eps)) ∧
    (sideType a b c eps = SideKind.Scalene ↔
      ¬(|a - b| < eps) ∧ ¬(|b - c| < eps) ∧ ¬(|c - a| < eps)) ∧
    sideType 5 5 5 (1/1000000) = SideKind.Equilateral ∧
    sideType 5 5 8 (1/1000000) = SideKind.Isosceles ∧
    sideType 3 4 5 (1/1000000) = SideKind.Scalene := by
  refine ⟨?_, ?_, ?_, by unfold sideType; norm_num [abs_lt],
    by unfold sideType; norm_num [abs_lt], by unfold sideType; norm_num [abs_lt]⟩
  · unfold sideType
    split_ifs with h1 h2
    · exact iff_of_true rfl h1
    · exact iff_of_false (by decide) h1
    · exact iff_of_false (by decide) h1
  · unfold sideType
    split_ifs with h1 h2
    · exact iff_of_false (by decide) (fun hh => hh.1 h1)
    · exact iff_of_true rfl ⟨h1, h2⟩
    · exact iff_of_false (by decide) (fun hh => h2 hh.2)
  · unfold sideType
    split_ifs with h1 h2
    · exact iff_of_false (by decide) (fun hh => hh.1 h1.1)
    · refine iff_of_false (by decide) ?_
      intro hh
      rcases h2 with h | h | h
      exacts [hh.1 h, hh.2.1 h, hh.2.2 h]
    · refine iff_of_true rfl ?_
      push_neg at h2
      exact ⟨not_lt.mpr h2.1, not_lt.mpr h2.2.1, not_lt.mpr h2.2.2⟩

/-- C6.  For positive lengths satisfying the triangle inequality, `angleType`
sorts them ascending into `s1 ≤ s2 ≤ L` and returns Right when
`|L² − (s1² + s2²)| < 1e-6`, Acute when (outside that band) `L² < s1² + s2²`,
Obtuse when `L² > s1² + s2²`; and the claim's three examples hold. -/
theorem angleType_spec (a b c s1 s2 L : ℚ) (ha : 0 < a) (hb : 0 < b)
    (hc : 0 < c) (hta : a < b + c) (htb : b < a + c) (htc : c < a + b)
    (hsort : sort3 a b c = (s1, s2, L)) :
    s1 ≤ s2 ∧ s2 ≤ L ∧
    (|L * L - (s1 * s1 + s2 * s2)| < 1/1000000 →
      angleType a b c (1/1000000) = AngleKind.Right) ∧
    (¬(|L * L - (s1 * s1 + s2 * s2)| < 1/1000000) →
      (L * L < s1 * s1 + s2 * s2 → angleType a b c (1/1000000) = AngleKind.Acute) ∧
      (s1 * s1 + s2 * s2 < L * L → angleType a b c (1/1000000) = AngleKind.Obtuse)) ∧
    angleType 3 4 5 (1/1000000) = AngleKind.Right ∧
    angleType 2 2 2 (1/1000000) = AngleKind.Acute ∧
    angleType 2 2 (39/10) (1/1000000) = AngleKind.Obtuse := by
  have hs := sort3_sorted a b c
  rw [hsort] at hs
  have hA : angleType a b c (1/1000000) =
      if |L * L - (s1 * s1 + s2 * s2)| < 1/1000000 then AngleKind.Right
      else if L * L < s1 * s1 + s2 * s2 then AngleKind.Acute
      else AngleKind.Obtuse := by
    unfold angleType
    rw [hsort]
  refine ⟨hs.1, hs.2, ?_, ?_, by unfold angleType sort3; norm_num [abs_lt],
    by unfold angleType sort3; norm_num [abs_lt],
    by unfold angleType sort3; norm_num [abs_lt]⟩
  · intro h
    rw [hA, if_pos h]
  · intro h
    constructor
    · intro h2
      rw [hA, if_neg h, if_pos h2]
    · intro h2
      rw [hA, if_neg h, if_neg (not_lt.mpr (le_of_lt h2))]

/-- C6 witness: the theorem applied at the right triangle `(3, 4, 5)`. -/
theorem angleType_spec_witness :
    (0 : ℚ) < 3 ∧ (0 : ℚ) < 4 ∧ (0 : ℚ) < 5 ∧ (3 : ℚ) < 4 + 5 ∧
    (4 : ℚ) < 3 + 5 ∧ (5 : ℚ) < 3 + 4 ∧ sort3 3 4 5 = (3, 4, 5) ∧
    ((3 : ℚ) ≤ 4 ∧ (4 : ℚ) ≤ 5 ∧
      (|(5 : ℚ) * 5 - (3 * 3 + 4 * 4)| < 1/1000000 →
        angleType 3 4 5 (1/1000000) = AngleKind.Right) ∧
      (¬(|(5 : ℚ) * 5 - (3 * 3 + 4 * 4)| < 1/1000000) →
        ((5 : ℚ) * 5 < 3 * 3 + 4 * 4 → angleType 3 4 5 (1/1000000) = AngleKind.Acute) ∧
        ((3 : ℚ) * 3 + 4 * 4 < 5 * 5 → angleType 3 4 5 (1/1000000) = AngleKind.Obtuse)) ∧
      angleType 3 4 5 (1/1000000) = AngleKind.Right ∧
      angleType 2 2 2 (1/1000000) = AngleKind.Acute ∧
      angleType 2 2 (39/10) (1/1000000) = AngleKind.Obtuse) :=
  ⟨by norm_num, by norm_num, by norm_num, by norm_num, by norm_num, by norm_num,
    by unfold sort3; norm_num,
    angleType_spec 3 4 5 3 4 5 (by norm_num) (by norm_num) (by norm_num)
      (by norm_num) (by norm_num) (by norm_num) (by unfold sort3; norm_num)⟩

/-- C4.  For a non-empty point list whose bounding box has non-zero extents,
every point `fitToBox` maps (at the defaults `size = 800`, `padding = 32`)
lands in `[32, 768]` on both axes. -/
theorem fitToBox_in_bounds (points : List QPoint) (hne : points ≠ [])
    (hW : maxList (points.map (fun p => p.x)) - minList (points.map (fun p => p.x)) ≠ 0)
    (hH : maxList (points.map (fun p => p.y)) - minList (points.map (fun p => p.y)) ≠ 0) :
    ∀ q ∈ (fitToBox points 800 32).mapped,
      32 ≤ q.x ∧ q.x ≤ 768 ∧ 32 ≤ q.y ∧ q.y ≤ 768 := by
  intro q hq
  unfold fitToBox at hq
  simp only [List.mem_map] at hq
  obtain ⟨p, hp, rfl⟩ := hq
  set xs := points.map (fun p => p.x) with hxs
  set ys := points.map (fun p => p.y) with hys
  set width := max 1 (maxList xs - minList xs) with hwidth
  set height := max 1 (maxList ys - minList ys) with hheight
  set scale := min ((800 - 2 * 32) / width) ((800 - 2 * 32) / height) with hscale
  have hw1 : (1 : ℚ) ≤ width := le_max_left _ _
  have hh1 : (1 : ℚ) ≤ height := le_max_left _ _
  have hw0 : (0 : ℚ) < width := lt_of_lt_of_le one_pos hw1
  have hh0 : (0 : ℚ) < height := lt_of_lt_of_le one_pos hh1
  have hspos : 0 < scale := by
    apply lt_min <;> apply div_pos (by norm_num) <;> assumption
  have hxmem : p.x ∈ xs := List.mem_map.2 ⟨p, hp, rfl⟩
  have hymem : p.y ∈ ys := List.mem_map.2 ⟨p, hp, rfl⟩
  have bound : ∀ v mn mx w : ℚ, mn ≤ v → v ≤ mx → mx - mn ≤ w → 0 < w →
      scale ≤ (800 - 2 * 32) / w →
      32 ≤ (v - mn) * scale + 32 ∧ (v - mn) * scale + 32 ≤ 768 := by
    intro v mn mx w hmn hmx hwle hwpos hsle
    have h0 : 0 ≤ v - mn := by linarith
    have h1 : v - mn ≤ w := by linarith
    have h2 : (v - mn) * scale ≤ w * ((800 - 2 * 32) / w) :=
      mul_le_mul h1 hsle hspos.le (by linarith)
    have hcancel : w * ((800 - 2 * 32 : ℚ) / w) = 800 - 2 * 32 := by
      rw [mul_comm, div_mul_cancel₀ _ hwpos.ne']
    rw [hcancel] at h2
    have h3 : 0 ≤ (v - mn) * scale := mul_nonneg h0 hspos.le
    constructor <;> [linarith; linarith]
  exact ⟨(bound p.x (minList xs) (maxList xs) width (minList_le hxmem)
      (le_maxList hxmem) (le_max_right _ _) hw0 (min_le_left _ _)).1,
    (bound p.x (minList xs) (maxList xs) width (minList_le hxmem)
      (le_maxList hxmem) (le_max_right _ _) hw0 (min_le_left _ _)).2,
    (bound p.y (minList ys) (maxList ys) height (minList_le hymem)
      (le_maxList hymem) (le_max_right _ _) hh0 (min_le_right _ _)).1,
    (bound p.y (minList ys) (maxList ys) height (minList_le hymem)
      (le_maxList hymem) (le_max_right _ _) hh0 (min_le_right _ _)).2⟩

/-- C4 witness: the theorem applied to the two-point list
`[(0,0), (1,2)]`, whose bounding extents are 1 and 2. -/
theorem fitToBox_in_bounds_witness :
    (([⟨0, 0⟩, ⟨1, 2⟩] : List QPoint) ≠ []) ∧
    (maxList (([⟨0, 0⟩, ⟨1, 2⟩] : List QPoint).map (fun p => p.x))
      - minList (([⟨0, 0⟩, ⟨1, 2⟩] : List QPoint).map (fun p => p.x)) ≠ 0) ∧
    (maxList (([⟨0, 0⟩, ⟨1, 2⟩] : List QPoint).map (fun p => p.y))
      - minList (([⟨0, 0⟩, ⟨1, 2⟩] : List QPoint).map (fun p => p.y)) ≠ 0) ∧
    ∀ q ∈ (fitToBox [⟨0, 0⟩, ⟨1, 2⟩] 800 32).mapped,
      32 ≤ q.x ∧ q.x ≤ 768 ∧ 32 ≤ q.y ∧ q.y ≤ 768 :=
  ⟨by simp, by norm_num [maxList, minList, List.foldl],
    by norm_num [maxList, minList, List.foldl],
    fitToBox_in_bounds [⟨0, 0⟩, ⟨1, 2⟩] (by simp)
      (by norm_num [maxList, minList, List.foldl])
      (by norm_num [maxList, minList, List.foldl])⟩

theorem rnd_mem (lo hi r : ℚ) (h0 : 0 ≤ r) (h1 : r < 1) (hlo : lo ≤ hi) :
    lo ≤ rnd lo hi r ∧ rnd lo hi r ≤ hi := by
  unfold rnd
  constructor
  · nlinarith
  · nlinarith

/-- The source's guard `dist(p,q) > m` (with `dist` the Euclidean distance)
is exactly the model's square-level guard `m·|m| < distSq p q`. -/
theorem distSq_threshold (m : ℚ) (p q : QPoint) :
    m * |m| < distSq p q ↔ (m : ℝ) < Real.sqrt ((distSq p q : ℚ) : ℝ) := by
  have hd : (0 : ℚ) ≤ distSq p q := by unfold distSq; positivity
  rcases le_or_lt 0 m with hm | hm
  · rw [abs_of_nonneg hm]
    rw [Real.lt_sqrt (by exact_mod_cast hm)]
    have hsq : ((m : ℝ)) ^ 2 = ((m * m : ℚ) : ℝ) := by push_cast; ring
    rw [hsq]
    exact ⟨fun h => by exact_mod_cast h, fun h => by exact_mod_cast h⟩
  · apply iff_of_true
    · nlinarith [abs_of_neg hm]
    · exact lt_of_lt_of_le (by exact_mod_cast hm) (Real.sqrt_nonneg _)

theorem randomTriangleLoop_spec (width height margin minSide : ℚ)
    (draws : ℕ → ℚ) (hdraws : ∀ i, 0 ≤ draws i ∧ draws i < 1)
    (hw : margin ≤ width - margin) (hh : margin ≤ height - margin) :
    ∀ (tries i : ℕ),
      (let T := randomTriangleLoop width height margin minSide draws tries i
       ((margin ≤ T.a.x ∧ T.a.x ≤ width - margin ∧ margin ≤ T.a.y ∧ T.a.y ≤ height - margin) ∧
        (margin ≤ T.b.x ∧ T.b.x ≤ width - margin ∧ margin ≤ T.b.y ∧ T.b.y ≤ height - margin) ∧
        (margin ≤ T.c.x ∧ T.c.x ≤ width - margin ∧ margin ≤ T.c.y ∧ T.c.y ≤ height - margin) ∧
        isNonCollinear T.a T.b T.c ∧
        minSide * |minSide| < distSq T.a T.b ∧
        minSide * |minSide| < distSq T.b T.c ∧
        minSide * |minSide| < distSq T.c T.a) ∨
       T = DEFAULT_POINTS) := by
  intro tries
  induction tries with
  | zero => intro i; exact Or.inr rfl
  | succ k ih =>
    intro i
    simp only [randomTriangleLoop]
    split_ifs with hacc
    · left
      refine ⟨?_, ?_, ?_, hacc.2.2.2, hacc.1, hacc.2.1, hacc.2.2.1⟩ <;>
        exact ⟨(rnd_mem _ _ _ (hdraws _).1 (hdraws _).2 hw).1,
          (rnd_mem _ _ _ (hdraws _).1 (hdraws _).2 hw).2,
          (rnd_mem _ _ _ (hdraws _).1 (hdraws _).2 hh).1,
          (rnd_mem _ _ _ (hdraws _).1 (hdraws _).2 hh).2⟩
    · exact ih (i + 1)

/-- C3.  For every stream of `Math.random()` draws (each in `[0,1)`) and any
margins that leave the sampling box non-empty, `randomTriangleInBox` returns
either a triangle whose points lie in
`[margin, width−margin] × [margin, height−margin]`, that satisfies
`isNonCollinear`, and whose three pairwise distances are ≥ `minSide` — or,
after `maxTries` failed draws, exactly the default triangle
`{(100,100), (700,120), (420,650)}` (which is `DEFAULT_POINTS`). -/
theorem randomTriangleInBox_spec (width height margin minSide : ℚ)
    (maxTries : ℕ) (draws : ℕ → ℚ) (T : TriangleForm)
    (hT : T = randomTriangleInBox width height margin minSide maxTries draws)
    (hdraws : ∀ i, 0 ≤ draws i ∧ draws i < 1)
    (hw : margin ≤ width - margin) (hh : margin ≤ height - margin) :
    ((margin ≤ T.a.x ∧ T.a.x ≤ width - margin ∧ margin ≤ T.a.y ∧ T.a.y ≤ height - margin) ∧
     (margin ≤ T.b.x ∧ T.b.x ≤ width - margin ∧ margin ≤ T.b.y ∧ T.b.y ≤ height - margin) ∧
     (margin ≤ T.c.x ∧ T.c.x ≤ width - margin ∧ margin ≤ T.c.y ∧ T.c.y ≤ height - margin) ∧
     isNonCollinear T.a T.b T.c ∧
     (minSide : ℝ) ≤ Real.sqrt ((distSq T.a T.b : ℚ) : ℝ) ∧
     (minSide : ℝ) ≤ Real.sqrt ((distSq T.b T.c : ℚ) : ℝ) ∧
     (minSide : ℝ) ≤ Real.sqrt ((distSq T.c T.a : ℚ) : ℝ)) ∨
    T = ⟨⟨100, 100⟩, ⟨700, 120⟩, ⟨420, 650⟩⟩ := by
  subst hT
  rcases randomTriangleLoop_spec width height margin minSide draws hdraws hw hh
      maxTries 0 with h | h
  · exact Or.inl ⟨h.1, h.2.1, h.2.2.1, h.2.2.2.1,
      le_of_lt ((distSq_threshold _ _ _).1 h.2.2.2.2.1),
      le_of_lt ((distSq_threshold _ _ _).1 h.2.2.2.2.2.1),
      le_of_lt ((distSq_threshold _ _ _).1 h.2.2.2.2.2.2)⟩
  · exact Or.inr h

/-- C3 witness: with the constant-zero draw stream every candidate triangle
is degenerate (all three points coincide), so 200 tries fail and the default
triangle is returned. -/
theorem randomTriangleInBox_spec_witness :
    ((randomTriangleInBox 800 800 60 80 200 (fun _ => 0) : TriangleForm) =
      randomTriangleInBox 800 800 60 80 200 (fun _ => 0)) ∧
    (∀ i : ℕ, (0 : ℚ) ≤ (fun _ => (0 : ℚ)) i ∧ (fun _ => (0 : ℚ)) i < 1) ∧
    (60 : ℚ) ≤ 800 - 60 ∧ (60 : ℚ) ≤ 800 - 60 ∧
    (((60 ≤ (randomTriangleInBox 800 800 60 80 200 (fun _ => 0)).a.x ∧
       (randomTriangleInBox 800 800 60 80 200 (fun _ => 0)).a.x ≤ 800 - 60 ∧
       60 ≤ (randomTriangleInBox 800 800 60 80 200 (fun _ => 0)).a.y ∧
       (randomTriangleInBox 800 800 60 80 200 (fun _ => 0)).a.y ≤ 800 - 60) ∧
      (60 ≤ (randomTriangleInBox 800 800 60 80 200 (fun _ => 0)).b.x ∧
       (randomTriangleInBox 800 800 60 80 200 (fun _ => 0)).b.x ≤ 800 - 60 ∧
       60 ≤ (randomTriangleInBox 800 800 60 80 200 (fun _ => 0)).b.y ∧
       (randomTriangleInBox 800 800 60 80 200 (fun _ => 0)).b.y ≤ 800 - 60) ∧
      (60 ≤ (randomTriangleInBox 800 800 60 80 200 (fun _ => 0)).c.x ∧
       (randomTriangleInBox 800 800 60 80 200 (fun _ => 0)).c.x ≤ 800 - 60 ∧
       60 ≤ (randomTriangleInBox 800 800 60 80 200 (fun _ => 0)).c.y ∧
       (randomTriangleInBox 800 800 60 80 200 (fun _ => 0)).c.y ≤ 800 - 60) ∧
      isNonCollinear (randomTriangleInBox 800 800 60 80 200 (fun _ => 0)).a
        (randomTriangleInBox 800 800 60 80 200 (fun _ => 0)).b
        (randomTriangleInBox 800 800 60 80 200 (fun _ => 0)).c ∧
      (80 : ℝ) ≤ Real.sqrt ((distSq (randomTriangleInBox 800 800 60 80 200 (fun _ => 0)).a
        (randomTriangleInBox 800 800 60 80 200 (fun _ => 0)).b : ℚ) : ℝ) ∧
      (80 : ℝ) ≤ Real.sqrt ((distSq (randomTriangleInBox 800 800 60 80 200 (fun _ => 0)).b
        (randomTriangleInBox 800 800 60 80 200 (fun _ => 0)).c : ℚ) : ℝ) ∧
      (80 : ℝ) ≤ Real.sqrt ((distSq (randomTriangleInBox 800 800 60 80 200 (fun _ => 0)).c
        (randomTriangleInBox 800 800 60 80 200 (fun _ => 0)).a : ℚ) : ℝ)) ∨
     randomTriangleInBox 800 800 60 80 200 (fun _ => 0) =
       ⟨⟨100, 100⟩, ⟨700, 120⟩, ⟨420, 650⟩⟩) :=
  ⟨rfl, fun _ => ⟨le_refl 0, by norm_num⟩, by norm_num, by norm_num,
    randomTriangleInBox_spec 800 800 60 80 200 (fun _ => 0) _ rfl
      (fun _ => ⟨le_refl 0, by norm_num⟩) (by norm_num) (by norm_num)⟩

theorem normalized_zero : normalized (⟨0, 0⟩ : RPoint) = ⟨0, 0⟩ := by
  unfold normalized vectorLength
  norm_num

/-- C10.  `angleBisectorPoint` is total: when the two unit direction vectors
are exactly anti-parallel their sum is the zero vector, `length || 1`
substitutes 1 for the zero length, and the function returns the vertex
itself, for every distance argument. -/
theorem angleBisectorPoint_antiparallel (A B C : RPoint) (d : ℝ)
    (h : normalized (vectorBetween A B) =
      ⟨-(normalized (vectorBetween A C)).x, -(normalized (vectorBetween A C)).y⟩) :
    angleBisectorPoint A B C d = A := by
  unfold angleBisectorPoint
  rw [h]
  dsimp only
  have hzero : (⟨-(normalized (vectorBetween A C)).x + (normalized (vectorBetween A C)).x,
      -(normalized (vectorBetween A C)).y + (normalized (vectorBetween A C)).y⟩ : RPoint)
      = ⟨0, 0⟩ := by
    simp
  rw [hzero, normalized_zero]
  simp

/-- C10 witness: vertex `(0,0)` with neighbors `(1,0)` and `(−1,0)` (exactly
anti-parallel unit directions) and distance 7. -/
theorem angleBisectorPoint_antiparallel_witness :
    normalized (vectorBetween ⟨0, 0⟩ ⟨1, 0⟩) =
      (⟨-(normalized (vectorBetween (⟨0, 0⟩ : RPoint) ⟨-1, 0⟩)).x,
        -(normalized (vectorBetween (⟨0, 0⟩ : RPoint) ⟨-1, 0⟩)).y⟩ : RPoint) ∧
    angleBisectorPoint ⟨0, 0⟩ ⟨1, 0⟩ ⟨-1, 0⟩ 7 = (⟨0, 0⟩ : RPoint) := by
  have h : normalized (vectorBetween (⟨0, 0⟩ : RPoint) ⟨1, 0⟩) =
      (⟨-(normalized (vectorBetween (⟨0, 0⟩ : RPoint) ⟨-1, 0⟩)).x,
        -(normalized (vectorBetween (⟨0, 0⟩ : RPoint) ⟨-1, 0⟩)).y⟩ : RPoint) := by
    unfold normalized vectorBetween vectorLength
    norm_num
  exact ⟨h, angleBisectorPoint_antiparallel ⟨0, 0⟩ ⟨1, 0⟩ ⟨-1, 0⟩ 7 h⟩

theorem distR_polar (p : RPoint) (r θ : ℝ) (hr : 0 ≤ r) :
    distR p ⟨p.x + r * Real.cos θ, p.y + r * Real.sin θ⟩ = r := by
  unfold distR
  have hsq : (p.x + r * Real.cos θ - p.x) ^ 2 + (p.y + r * Real.sin θ - p.y) ^ 2
      = r ^ 2 := by
    have h1 := Real.sin_sq_add_cos_sq θ
    nlinarith [h1]
  rw [hsq, Real.sqrt_sq hr]

/-- C7.  With non-zero direction vectors and a non-negative radius,
`angleArcPathAt` is empty exactly when the sign-removed normalized sweep is
below `1e-3` radians; otherwise the arc's start and end points lie exactly
`radius` from the vertex (and the recorded radius is `radius`). -/
theorem angleArcPathAt_spec (A B C : RPoint) (r : ℝ)
    (hB : vectorBetween A B ≠ (⟨0, 0⟩ : RPoint))
    (hC : vectorBetween A C ≠ (⟨0, 0⟩ : RPoint)) (hr : 0 ≤ r) :
    (angleArcPathAt A B C r = none ↔ arcSweep A B C < 1/1000) ∧
    (∀ arc, angleArcPathAt A B C r = some arc →
      distR A arc.arcStart = r ∧ distR A arc.arcEnd = r ∧ arc.radius = r) := by
  unfold angleArcPathAt arcSweep
  dsimp only
  set sa := atan2 (vectorBetween A B).y (vectorBetween A B).x with hsa
  set ea := atan2 (vectorBetween A C).y (vectorBetween A C).x with hea
  set s1 := sweepNorm (ea - sa) with hs1
  have habs : (if s1 < 0 then -s1 else s1) = |s1| := by
    split_ifs with h
    · exact (abs_of_neg h).symm
    · exact (abs_of_nonneg (not_lt.1 h)).symm
  rw [habs]
  by_cases hlt : |s1| < 1/1000
  · rw [if_pos hlt]
    exact ⟨iff_of_true rfl hlt, fun arc harc => by cases harc⟩
  · rw [if_neg hlt]
    refine ⟨iff_of_false (by simp) hlt, fun arc harc => ?_⟩
    have harc2 := Option.some.inj harc
    subst harc2
    exact ⟨distR_polar A r _ hr, distR_polar A r _ hr, rfl⟩

/-- C7 witness: vertex `(0,0)` with neighbors `(1,0)` and `(0,1)` and
radius 5. -/
theorem angleArcPathAt_spec_witness :
    vectorBetween (⟨0, 0⟩ : RPoint) ⟨1, 0⟩ ≠ (⟨0, 0⟩ : RPoint) ∧
    vectorBetween (⟨0, 0⟩ : RPoint) ⟨0, 1⟩ ≠ (⟨0, 0⟩ : RPoint) ∧
    (0 : ℝ) ≤ 5 ∧
    ((angleArcPathAt ⟨0, 0⟩ ⟨1, 0⟩ ⟨0, 1⟩ 5 = none ↔
        arcSweep ⟨0, 0⟩ ⟨1, 0⟩ ⟨0, 1⟩ < 1/1000) ∧
      (∀ arc, angleArcPathAt ⟨0, 0⟩ ⟨1, 0⟩ ⟨0, 1⟩ 5 = some arc →
        distR ⟨0, 0⟩ arc.arcStart = 5 ∧ distR ⟨0, 0⟩ arc.arcEnd = 5 ∧
          arc.radius = 5)) :=
  ⟨by unfold vectorBetween; simp, by unfold vectorBetween; simp, by norm_num,
    angleArcPathAt_spec ⟨0, 0⟩ ⟨1, 0⟩ ⟨0, 1⟩ 5
      (by unfold vectorBetween; simp) (by unfold vectorBetween; simp)
      (by norm_num)⟩

/-- `Real.arccos` already clamps (through `arcsin`), so the source's explicit
clamp is the identity under `arccos`. -/
theorem arccos_clamp (t : ℝ) : Real.arccos (max (-1) (min 1 t)) = Real.arccos t := by
  rcases le_total t (-1) with h | h
  · rw [min_eq_right (le_trans h (by norm_num)), max_eq_left h]
    simp only [Real.arccos]
    rw [Real.arcsin_of_le_neg_one h, Real.arcsin_of_le_neg_one (le_refl (-1 : ℝ))]
  · rcases le_total 1 t with h1 | h1
    · rw [min_eq_left h1, max_eq_right (by norm_num : (-1 : ℝ) ≤ 1)]
      simp only [Real.arccos]
      rw [Real.arcsin_of_one_le h1, Real.arcsin_of_one_le (le_refl (1 : ℝ))]
    · rw [min_eq_right h1, max_eq_right h]

theorem toE2_apply_zero (p : RPoint) : toE2 p 0 = p.x := by
  simp [toE2, WithLp.equiv_symm_pi_apply]

theorem toE2_apply_one (p : RPoint) : toE2 p 1 = p.y := by
  simp [toE2, WithLp.equiv_symm_pi_apply]

theorem norm_toE2 (v : RPoint) : ‖toE2 v‖ = vectorLength v := by
  rw [EuclideanSpace.norm_eq]
  unfold vectorLength
  rw [Fin.sum_univ_two, toE2_apply_zero, toE2_apply_one]
  simp [Real.norm_eq_abs, sq_abs]

theorem inner_toE2 (u v : RPoint) :
    (inner (toE2 u) (toE2 v) : ℝ) = dotProduct u v := by
  rw [PiLp.inner_apply, Fin.sum_univ_two, toE2_apply_zero, toE2_apply_one,
    toE2_apply_zero, toE2_apply_one]
  unfold dotProduct
  simp [RCLike.inner_apply]

theorem toE2_sub (A B : RPoint) :
    toE2 B - toE2 A = toE2 (vectorBetween A B) := by
  funext i
  fin_cases i
  · rw [PiLp.sub_apply]
    simp [toE2_apply_zero, vectorBetween]
  · rw [PiLp.sub_apply]
    simp [toE2_apply_one, vectorBetween]

theorem angleAtVertex_eq_angle (A B C : RPoint) :
    angleAtVertex A B C =
      InnerProductGeometry.angle (toE2 (vectorBetween A B)) (toE2 (vectorBetween A C)) := by
  unfold angleAtVertex InnerProductGeometry.angle
  dsimp only
  rw [arccos_clamp, inner_toE2, norm_toE2, norm_toE2]

theorem angleAtVertex_eq_anglePts (A B C : RPoint) :
    angleAtVertex A B C = EuclideanGeometry.angle (toE2 B) (toE2 A) (toE2 C) := by
  rw [angleAtVertex_eq_angle]
  unfold EuclideanGeometry.angle
  rw [vsub_eq_sub, vsub_eq_sub, toE2_sub, toE2_sub]

theorem toE2_inj {p q : RPoint} (h : toE2 p = toE2 q) : p = q := by
  have hx : toE2 p 0 = toE2 q 0 := by rw [h]
  have hy : toE2 p 1 = toE2 q 1 := by rw [h]
  rw [toE2_apply_zero, toE2_apply_zero] at hx
  rw [toE2_apply_one, toE2_apply_one] at hy
  cases p
  cases q
  simp_all

theorem ne_of_isNonCollinearR {A B C : RPoint} (h : isNonCollinearR A B C) :
    A ≠ C ∧ B ≠ C := by
  constructor
  · intro hEq
    unfold isNonCollinearR triangleAreaR at h
    rw [hEq] at h
    have hz : C.x * (B.y - C.y) + B.x * (C.y - C.y) + C.x * (C.y - B.y) = 0 := by
      ring
    rw [hz] at h
    norm_num at h
  · intro hEq
    unfold isNonCollinearR triangleAreaR at h
    rw [hEq] at h
    have hz : A.x * (C.y - C.y) + C.x * (C.y - A.y) + C.x * (A.y - C.y) = 0 := by
      ring
    rw [hz] at h
    norm_num at h

/-- C8.  For three points passing the repository's non-collinearity gate, the
three `angleAtVertex` results sum to exactly `π` (the exact-real model has no
floating-point drift, so equality holds outright, subsuming the claim's
`1e-6` tolerance), and each result lies in `[0, π]`. -/
theorem angleAtVertex_sum_eq_pi (A B C : RPoint) (h : isNonCollinearR A B C) :
    angleAtVertex A B C + angleAtVertex B C A + angleAtVertex C A B = Real.pi ∧
    (0 ≤ angleAtVertex A B C ∧ angleAtVertex A B C ≤ Real.pi) ∧
    (0 ≤ angleAtVertex B C A ∧ angleAtVertex B C A ≤ Real.pi) ∧
    (0 ≤ angleAtVertex C A B ∧ angleAtVertex C A B ≤ Real.pi) := by
  obtain ⟨hAC, hBC⟩ := ne_of_isNonCollinearR h
  have h2 : toE2 A ≠ toE2 C := fun hh => hAC (toE2_inj hh)
  have h3 : toE2 B ≠ toE2 C := fun hh => hBC (toE2_inj hh)
  have hsum := @EuclideanGeometry.angle_add_angle_add_angle_eq_pi _ _ _ _ _ _
    (toE2 C) (toE2 A) (toE2 B) h2 h3
  have e1 : angleAtVertex A B C = EuclideanGeometry.angle (toE2 C) (toE2 A) (toE2 B) := by
    rw [angleAtVertex_eq_anglePts]
    exact EuclideanGeometry.angle_comm _ _ _
  have e2 : angleAtVertex B C A = EuclideanGeometry.angle (toE2 A) (toE2 B) (toE2 C) := by
    rw [angleAtVertex_eq_anglePts]
    exact EuclideanGeometry.angle_comm _ _ _
  have e3 : angleAtVertex C A B = EuclideanGeometry.angle (toE2 B) (toE2 C) (toE2 A) := by
    rw [angleAtVertex_eq_anglePts]
    exact EuclideanGeometry.angle_comm _ _ _
  refine ⟨?_, ⟨Real.arccos_nonneg _, Real.arccos_le_pi _⟩,
    ⟨Real.arccos_nonneg _, Real.arccos_le_pi _⟩,
    ⟨Real.arccos_nonneg _, Real.arccos_le_pi _⟩⟩
  rw [e1, e2, e3]
  exact hsum

/-- C8 witness: the theorem applied to the triangle `(0,0), (1,0), (0,1)`,
whose area is `1/2 > 1e-6`. -/
theorem angleAtVertex_sum_eq_pi_witness :
    isNonCollinearR ⟨0, 0⟩ ⟨1, 0⟩ ⟨0, 1⟩ ∧
    (angleAtVertex ⟨0, 0⟩ ⟨1, 0⟩ ⟨0, 1⟩ + angleAtVertex ⟨1, 0⟩ ⟨0, 1⟩ ⟨0, 0⟩
        + angleAtVertex ⟨0, 1⟩ ⟨0, 0⟩ ⟨1, 0⟩ = Real.pi ∧
      (0 ≤ angleAtVertex (⟨0, 0⟩ : RPoint) ⟨1, 0⟩ ⟨0, 1⟩ ∧
        angleAtVertex (⟨0, 0⟩ : RPoint) ⟨1, 0⟩ ⟨0, 1⟩ ≤ Real.pi) ∧
      (0 ≤ angleAtVertex (⟨1, 0⟩ : RPoint) ⟨0, 1⟩ ⟨0, 0⟩ ∧
        angleAtVertex (⟨1, 0⟩ : RPoint) ⟨0, 1⟩ ⟨0, 0⟩ ≤ Real.pi) ∧
      (0 ≤ angleAtVertex (⟨0, 1⟩ : RPoint) ⟨0, 0⟩ ⟨1, 0⟩ ∧
        angleAtVertex (⟨0, 1⟩ : RPoint) ⟨0, 0⟩ ⟨1, 0⟩ ≤ Real.pi)) := by
  have h : isNonCollinearR (⟨0, 0⟩ : RPoint) ⟨1, 0⟩ ⟨0, 1⟩ := by
    unfold isNonCollinearR triangleAreaR
    norm_num
  exact ⟨h, angleAtVertex_sum_eq_pi ⟨0, 0⟩ ⟨1, 0⟩ ⟨0, 1⟩ h⟩

/- ### Lemmas for the string layer -/

theorem charToDigit_digitToChar {d : ℕ} (h : d < 10) :
    charToDigit (digitToChar d) = d := by
  interval_cases d <;> rfl

theorem isDigitC_digitToChar {d : ℕ} (h : d < 10) :
    isDigitC (digitToChar d) = true := by
  interval_cases d <;> rfl

theorem foldr_eq_ofDigits (L : List ℕ) :
    L.foldr (fun d acc => acc * 10 + d) 0 = Nat.ofDigits 10 L := by
  induction L with
  | nil => rfl
  | cons d rest ih =>
    simp [List.foldr_cons, ih, Nat.ofDigits_cons]
    ring

theorem charsToNat_rev_map_valid (L : List ℕ) (h : ∀ d ∈ L, d < 10) :
    charsToNat ((L.map digitToChar).reverse) = Nat.ofDigits 10 L := by
  unfold charsToNat
  rw [List.foldl_reverse, List.foldr_map]
  induction L with
  | nil => rfl
  | cons d rest ih =>
    simp only [List.foldr_cons, Nat.ofDigits_cons]
    rw [ih (fun x hx => h x (List.mem_cons_of_mem d hx))]
    rw [charToDigit_digitToChar (h d (List.mem_cons_self d rest))]
    ring

theorem charsToNat_natToChars (n : ℕ) : charsToNat (natToChars n) = n := by
  unfold natToChars
  split_ifs with h
  · subst h; rfl
  · rw [charsToNat_rev_map_valid _ (fun d hd => Nat.digits_lt_base (by norm_num) hd)]
    exact Nat.ofDigits_digits 10 n

theorem charsToNat_replicate_zero_append (m : ℕ) (l : List Char) :
    charsToNat (List.replicate m '0' ++ l) = charsToNat l := by
  unfold charsToNat
  rw [List.foldl_append]
  have hz : List.foldl (fun acc c => acc * 10 + charToDigit c) 0
      (List.replicate m '0') = 0 := by
    induction m with
    | zero => rfl
    | succ k ih => simpa [List.replicate_succ] using ih
  rw [hz]

theorem charsToNat_natToCharsPad (k n : ℕ) :
    charsToNat (natToCharsPad k n) = n := by
  unfold natToCharsPad
  rw [charsToNat_replicate_zero_append, charsToNat_natToChars]

theorem natToChars_ne_nil (n : ℕ) : natToChars n ≠ [] := by
  unfold natToChars
  split_ifs with h
  · simp
  · simp [Nat.digits_ne_nil_iff_ne_zero.mpr h]

theorem natToChars_all_digits (n : ℕ) :
    ∀ c ∈ natToChars n, isDigitC c = true := by
  unfold natToChars
  split_ifs with h
  · intro c hc
    simp at hc
    subst hc
    rfl
  · intro c hc
    rw [List.mem_reverse, List.mem_map] at hc
    obtain ⟨d, hd, rfl⟩ := hc
    exact isDigitC_digitToChar (Nat.digits_lt_base (by norm_num) hd)

theorem natToCharsPad_all_digits (k n : ℕ) :
    ∀ c ∈ natToCharsPad k n, isDigitC c = true := by
  unfold natToCharsPad
  intro c hc
  rw [List.mem_append] at hc
  rcases hc with hc | hc
  · rw [List.eq_of_mem_replicate hc]
    rfl
  · exact natToChars_all_digits n c hc

theorem natToChars_length_le {k n : ℕ} (hk : 1 ≤ k) (h : n < 10 ^ k) :
    (natToChars n).length ≤ k := by
  unfold natToChars
  split_ifs with h0
  · simpa using hk
  · rw [List.length_reverse, List.length_map]
    rw [Nat.digits_len 10 n (by norm_num) h0]
    have := (Nat.lt_pow_iff_log_lt (by norm_num : 1 < 10) h0).1 h
    omega

theorem natToCharsPad_length {k n : ℕ} (hk : 1 ≤ k) (h : n < 10 ^ k) :
    (natToCharsPad k n).length = k := by
  unfold natToCharsPad
  rw [List.length_append, List.length_replicate]
  have := natToChars_length_le hk h
  omega

theorem toNat_lt_of_isWS {c : Char} (h : isWS c = true) : c.toNat < 48 := by
  unfold isWS at h
  simp only [Bool.or_eq_true, decide_eq_true_eq] at h
  rcases h with (((rfl | rfl) | rfl) | rfl) <;> decide

theorem isWS_false_of_digit {c : Char} (h : isDigitC c = true) : isWS c = false := by
  by_contra hcon
  have hws : isWS c = true := by
    revert hcon
    cases isWS c <;> simp
  have h2 := toNat_lt_of_isWS hws
  unfold isDigitC at h
  simp only [Bool.and_eq_true, decide_eq_true_eq] at h
  omega

theorem plain_props {c : Char} (h : isDigitC c = true ∨ c = '.' ∨ c = '-') :
    isWS c = false ∧ c ≠ '&' ∧ c ≠ '=' ∧ c ≠ '%' ∧ c ≠ '+' ∧ c ≠ ',' ∧ c ≠ '?' := by
  rcases h with h | rfl | rfl
  · have hws := isWS_false_of_digit h
    unfold isDigitC at h
    simp only [Bool.and_eq_true, decide_eq_true_eq] at h
    refine ⟨hws, ?_, ?_, ?_, ?_, ?_, ?_⟩ <;>
      · intro hEq
        subst hEq
        revert h
        decide
  · refine ⟨by decide, by decide, by decide, by decide, by decide, by decide, by decide⟩
  · refine ⟨by decide, by decide, by decide, by decide, by decide, by decide, by decide⟩

theorem dropWhile_isWS_eq_self {l : List Char} (h : ∀ c ∈ l, isWS c = false) :
    l.dropWhile isWS = l := by
  cases l with
  | nil => rfl
  | cons c cs => simp [List.dropWhile_cons, h c (by simp)]

theorem trimWS_eq_self {l : List Char} (h : ∀ c ∈ l, isWS c = false) :
    trimWS l = l := by
  unfold trimWS
  rw [dropWhile_isWS_eq_self h,
    dropWhile_isWS_eq_self (fun c hc => h c (List.mem_reverse.1 hc))]
  exact List.reverse_reverse l

theorem takeDigits_all {l : List Char} (h : ∀ c ∈ l, isDigitC c = true) :
    takeDigits l = (l, []) := by
  induction l with
  | nil => rfl
  | cons c cs ih =>
    simp only [takeDigits, h c (by simp), if_true]
    rw [ih (fun x hx => h x (by simp [hx]))]

theorem takeDigits_append {ds rest : List Char}
    (hds : ∀ c ∈ ds, isDigitC c = true)
    (hrest : ∀ c, rest.head? = some c → isDigitC c = false) :
    takeDigits (ds ++ rest) = (ds, rest) := by
  induction ds with
  | nil =>
    cases rest with
    | nil => rfl
    | cons r rs =>
      have hr : isDigitC r = false := hrest r rfl
      simp [takeDigits, hr]
  | cons c cs ih =>
    have hc := hds c (by simp)
    simp only [List.cons_append, takeDigits, hc, if_true, List.append_eq]
    rw [ih (fun x hx => hds x (by simp [hx]))]

theorem magnitudeChars_ne_nil (q : ℚ) : magnitudeChars q ≠ [] := by
  unfold magnitudeChars
  split_ifs with h
  · exact natToChars_ne_nil _
  · dsimp only
    intro hcon
    exact natToChars_ne_nil _ (List.append_eq_nil.1 hcon).1

theorem magnitudeChars_plain (q : ℚ) :
    ∀ c ∈ magnitudeChars q, isDigitC c = true ∨ c = '.' := by
  unfold magnitudeChars
  split_ifs with h
  · exact fun c hc => Or.inl (natToChars_all_digits _ c hc)
  · dsimp only
    intro c hc
    rw [List.mem_append] at hc
    rcases hc with hc | hc
    · exact Or.inl (natToChars_all_digits _ c hc)
    · rw [List.mem_cons] at hc
      rcases hc with rfl | hc
      · exact Or.inr rfl
      · exact Or.inl (natToCharsPad_all_digits _ _ c hc)

theorem numToString_plain (q : ℚ) :
    ∀ c ∈ numToString q, isDigitC c = true ∨ c = '.' ∨ c = '-' := by
  unfold numToString
  intro c hc
  rw [List.mem_append] at hc
  rcases hc with hc | hc
  · split_ifs at hc
    · rw [List.mem_singleton] at hc
      exact Or.inr (Or.inr hc)
    · cases hc
  · rcases magnitudeChars_plain q c hc with h | h
    · exact Or.inl h
    · exact Or.inr (Or.inl h)

theorem magnitudeChars_head_digit (q : ℚ) :
    ∃ c, (magnitudeChars q).head? = some c ∧ isDigitC c = true := by
  unfold magnitudeChars
  split_ifs with h
  · obtain ⟨c, cs, hcons⟩ := List.exists_cons_of_ne_nil (natToChars_ne_nil q.num.natAbs)
    exact ⟨c, by rw [hcons]; rfl,
      natToChars_all_digits _ c (by rw [hcons]; simp)⟩
  · dsimp only
    obtain ⟨c, cs, hcons⟩ := List.exists_cons_of_ne_nil
      (natToChars_ne_nil (q.num.natAbs * 10 ^ q.den / q.den / 10 ^ q.den))
    refine ⟨c, ?_, natToChars_all_digits _ c (by rw [hcons]; simp)⟩
    rw [hcons]
    rfl

theorem parseUnsigned_natToChars (n : ℕ) :
    parseUnsigned (natToChars n) = some ((n : ℚ)) := by
  unfold parseUnsigned
  rw [takeDigits_all (natToChars_all_digits n)]
  dsimp only
  rw [if_pos rfl, if_neg (natToChars_ne_nil n), charsToNat_natToChars]

theorem parseUnsigned_int_frac (I F k : ℕ) (hk : 1 ≤ k) (hF : F < 10 ^ k) :
    parseUnsigned (natToChars I ++ ('.' :: natToCharsPad k F)) =
      some ((I : ℚ) + (F : ℚ) / 10 ^ k) := by
  unfold parseUnsigned
  rw [takeDigits_append (natToChars_all_digits I)
    (fun c hc => by rw [show c = '.' from (Option.some.inj hc).symm]; rfl)]
  dsimp only
  rw [if_neg (by simp)]
  rw [if_pos (show (('.' :: natToCharsPad k F) : List Char).head? = some '.' from rfl)]
  rw [show (('.' :: natToCharsPad k F) : List Char).tail = natToCharsPad k F from rfl]
  rw [takeDigits_all (natToCharsPad_all_digits k F)]
  dsimp only
  rw [if_pos rfl, if_neg (fun hh => natToChars_ne_nil _ hh.1)]
  rw [charsToNat_natToChars, charsToNat_natToCharsPad,
    natToCharsPad_length hk hF]

theorem int_frac_value (n d : ℕ) (hd0 : d ≠ 0) (hdvd : d ∣ 10 ^ d) :
    ((n * 10 ^ d / d / 10 ^ d : ℕ) : ℚ)
      + ((n * 10 ^ d / d % 10 ^ d : ℕ) : ℚ) / 10 ^ d = (n : ℚ) / (d : ℚ) := by
  set N := n * 10 ^ d / d with hN
  have hNd : N * d = n * 10 ^ d := Nat.div_mul_cancel (hdvd.mul_left n)
  have hsplit : (10 : ℕ) ^ d * (N / 10 ^ d) + N % 10 ^ d = N :=
    Nat.div_add_mod N (10 ^ d)
  have hq1 : (10 : ℚ) ^ d * ((N / 10 ^ d : ℕ) : ℚ) + ((N % 10 ^ d : ℕ) : ℚ)
      = (N : ℚ) := by
    exact_mod_cast congrArg (fun m : ℕ => (m : ℚ)) hsplit
  have hq2 : (N : ℚ) * (d : ℚ) = (n : ℚ) * 10 ^ d := by exact_mod_cast hNd
  have h10 : ((10 : ℚ)) ^ d ≠ 0 := by positivity
  have hdq : ((d : ℚ)) ≠ 0 := Nat.cast_ne_zero.2 hd0
  field_simp
  linear_combination (d : ℚ) * hq1 + hq2

theorem parseUnsigned_magnitudeChars (q : ℚ) (h : TerminatingDecimal q) :
    parseUnsigned (magnitudeChars q) = some ((q.num.natAbs : ℚ) / (q.den : ℚ)) := by
  by_cases hden : q.den = 1
  · unfold magnitudeChars
    rw [if_pos hden, parseUnsigned_natToChars, hden]
    norm_num
  · have hdvd : q.den ∣ 10 ^ q.den := by
      have h2 : (q.den : ℤ) ∣ ((10 ^ q.den : ℕ) : ℤ) := by
        unfold TerminatingDecimal at h
        push_cast
        exact_mod_cast h
      exact_mod_cast h2
    unfold magnitudeChars
    rw [if_neg hden]
    dsimp only
    rw [parseUnsigned_int_frac _ _ _ q.den_pos (Nat.mod_lt _ (by positivity))]
    rw [Option.some.injEq]
    exact int_frac_value q.num.natAbs q.den q.den_ne_zero hdvd

theorem parseSigned_of_digit_head {l : List Char} {c : Char}
    (hc : l.head? = some c) (hd : isDigitC c = true) :
    parseSigned l = parseUnsigned l := by
  have h1 : c ≠ '-' := fun hEq => by subst hEq; exact absurd hd (by decide)
  have h2 : c ≠ '+' := fun hEq => by subst hEq; exact absurd hd (by decide)
  unfold parseSigned
  rw [hc, if_neg (by simp [h1]), if_neg (by simp [h2])]

/-- Printing a terminating-decimal rational and coercing the string back
recovers the number exactly. -/
theorem parseJSNumber_numToString (q : ℚ) (h : TerminatingDecimal q) :
    parseJSNumber (numToString q) = some q := by
  have htrim : trimWS (numToString q) = numToString q :=
    trimWS_eq_self (fun c hc => (plain_props (numToString_plain q c hc)).1)
  have hmag := parseUnsigned_magnitudeChars q h
  unfold parseJSNumber
  rw [htrim]
  by_cases hneg : q.num < 0
  · have hform : numToString q = '-' :: magnitudeChars q := by
      unfold numToString
      rw [if_pos hneg]
      rfl
    rw [hform, if_neg (by simp)]
    unfold parseSigned
    rw [show ('-' :: magnitudeChars q).head? = some '-' from rfl, if_pos rfl]
    rw [show ('-' :: magnitudeChars q).tail = magnitudeChars q from rfl, hmag]
    have hz : (q.num.natAbs : ℤ) = -q.num := by omega
    have hzq : ((q.num.natAbs : ℚ)) = -(q.num : ℚ) := by
      rw [show ((q.num.natAbs : ℚ)) = ((q.num.natAbs : ℤ) : ℚ) from
        (Int.cast_natCast q.num.natAbs).symm]
      rw [hz]
      push_cast
      ring
    rw [Option.map_some', Option.some.injEq, hzq]
    rw [neg_div, neg_neg, Rat.num_div_den]
  · have hform : numToString q = magnitudeChars q := by
      unfold numToString
      rw [if_neg hneg]
      rfl
    rw [hform, if_neg (magnitudeChars_ne_nil q)]
    obtain ⟨c, hc, hcd⟩ := magnitudeChars_head_digit q
    rw [parseSigned_of_digit_head hc hcd, hmag]
    have hz : (q.num.natAbs : ℤ) = q.num := by omega
    have hzq : ((q.num.natAbs : ℚ)) = (q.num : ℚ) := by
      rw [show ((q.num.natAbs : ℚ)) = ((q.num.natAbs : ℤ) : ℚ) from
        (Int.cast_natCast q.num.natAbs).symm]
      rw [hz]
    rw [Option.some.injEq, hzq, Rat.num_div_den]

theorem pdecode_eq_self {l : List Char} (h : ∀ c ∈ l, c ≠ '%' ∧ c ≠ '+') :
    pdecode l = l := by
  induction l with
  | nil => rw [pdecode.eq_def]
  | cons c cs ih =>
    have hc := h c (by simp)
    rw [pdecode.eq_def]
    dsimp only
    rw [if_neg hc.2, if_neg hc.1]
    rw [ih (fun x hx => h x (by simp [hx]))]

theorem splitOnC_of_not_mem {sep : Char} {l : List Char} (h : sep ∉ l) :
    splitOnC sep l = [l] := by
  induction l with
  | nil => rfl
  | cons c cs ih =>
    have hc : ¬(c = sep) := fun hEq => h (by rw [← hEq]; simp)
    simp only [splitOnC, if_neg hc]
    rw [ih (fun hx => h (List.mem_cons_of_mem c hx))]

theorem splitOnC_append {sep : Char} {xs : List Char} (ys : List Char)
    (h : sep ∉ xs) :
    splitOnC sep (xs ++ sep :: ys) = xs :: splitOnC sep ys := by
  induction xs with
  | nil => simp [splitOnC]
  | cons c cs ih =>
    have hc : ¬(c = sep) := fun hEq => h (by rw [← hEq]; simp)
    simp only [List.cons_append, splitOnC, if_neg hc, List.append_eq]
    rw [ih (fun hx => h (List.mem_cons_of_mem c hx))]

theorem splitFirstEq_append {k : List Char} (v : List Char) (h : ('=' : Char) ∉ k) :
    splitFirstEq (k ++ '=' :: v) = (k, v) := by
  induction k with
  | nil => simp [splitFirstEq]
  | cons c cs ih =>
    have hc : ¬(c = '=') := fun hEq => h (by rw [← hEq]; simp)
    simp only [List.cons_append, splitFirstEq, if_neg hc, List.append_eq]
    rw [ih (fun hx => h (List.mem_cons_of_mem c hx))]

theorem amp_not_mem_piece {key : Char} (hk : key ≠ '&') {V : List Char}
    (hV : ∀ x ∈ V, x ≠ '&') : ('&' : Char) ∉ key :: '=' :: V := by
  intro hmem
  rcases List.mem_cons.1 hmem with h1 | hmem2
  · exact hk h1.symm
  rcases List.mem_cons.1 hmem2 with h2 | hmem3
  · exact absurd h2 (by decide)
  · exact hV '&' hmem3 rfl

theorem encVal_no_special (p : QPoint) :
    ∀ x ∈ numToString p.x ++ (',' :: numToString p.y),
      x ≠ '&' ∧ x ≠ '=' ∧ x ≠ '%' ∧ x ≠ '+' := by
  intro x hx
  rcases List.mem_append.1 hx with hx | hx
  · have hp := plain_props (numToString_plain p.x x hx)
    exact ⟨hp.2.1, hp.2.2.1, hp.2.2.2.1, hp.2.2.2.2.1⟩
  · rcases List.mem_cons.1 hx with rfl | hx
    · exact ⟨by decide, by decide, by decide, by decide⟩
    · have hp := plain_props (numToString_plain p.y x hx)
      exact ⟨hp.2.1, hp.2.2.1, hp.2.2.2.1, hp.2.2.2.2.1⟩

theorem urlPairs_buildDisplayQuery (a b c : QPoint) :
    urlPairs (buildDisplayQuery a b c) =
      [(['a'], numToString a.x ++ (',' :: numToString a.y)),
       (['b'], numToString b.x ++ (',' :: numToString b.y)),
       (['c'], numToString c.x ++ (',' :: numToString c.y))] := by
  have hVa := encVal_no_special a
  have hVb := encVal_no_special b
  have hVc := encVal_no_special c
  unfold buildDisplayQuery urlPairs
  dsimp only
  rw [show ((('?' :: ('a' :: '=' :: (numToString a.x ++ (',' :: numToString a.y))))
        ++ ('&' :: 'b' :: '=' :: (numToString b.x ++ (',' :: numToString b.y)))
        ++ ('&' :: 'c' :: '=' :: (numToString c.x ++ (',' :: numToString c.y)))).head?)
      = some '?' from rfl]
  rw [if_pos rfl]
  rw [show ((('?' :: ('a' :: '=' :: (numToString a.x ++ (',' :: numToString a.y))))
        ++ ('&' :: 'b' :: '=' :: (numToString b.x ++ (',' :: numToString b.y)))
        ++ ('&' :: 'c' :: '=' :: (numToString c.x ++ (',' :: numToString c.y)))).tail)
      = ('a' :: '=' :: (numToString a.x ++ (',' :: numToString a.y)))
        ++ '&' :: (('b' :: '=' :: (numToString b.x ++ (',' :: numToString b.y)))
          ++ '&' :: ('c' :: '=' :: (numToString c.x ++ (',' :: numToString c.y))))
      from by simp]
  rw [splitOnC_append _ (amp_not_mem_piece (by decide) (fun x hx => (hVa x hx).1))]
  rw [splitOnC_append _ (amp_not_mem_piece (by decide) (fun x hx => (hVb x hx).1))]
  rw [splitOnC_of_not_mem (amp_not_mem_piece (by decide) (fun x hx => (hVc x hx).1))]
  simp only [List.filterMap_cons, List.filterMap_nil]
  rw [if_neg (by simp), if_neg (by simp), if_neg (by simp)]
  rw [show ('a' :: '=' :: (numToString a.x ++ (',' :: numToString a.y)))
      = ['a'] ++ '=' :: (numToString a.x ++ (',' :: numToString a.y)) from rfl,
    splitFirstEq_append _ (by decide)]
  rw [show ('b' :: '=' :: (numToString b.x ++ (',' :: numToString b.y)))
      = ['b'] ++ '=' :: (numToString b.x ++ (',' :: numToString b.y)) from rfl,
    splitFirstEq_append _ (by decide)]
  rw [show ('c' :: '=' :: (numToString c.x ++ (',' :: numToString c.y)))
      = ['c'] ++ '=' :: (numToString c.x ++ (',' :: numToString c.y)) from rfl,
    splitFirstEq_append _ (by decide)]
  dsimp only
  rw [@pdecode_eq_self ['a'] (by decide), @pdecode_eq_self ['b'] (by decide),
    @pdecode_eq_self ['c'] (by decide)]
  rw [@pdecode_eq_self (numToString a.x ++ (',' :: numToString a.y))
      (fun x hx => ⟨(hVa x hx).2.2.1, (hVa x hx).2.2.2⟩),
    @pdecode_eq_self (numToString b.x ++ (',' :: numToString b.y))
      (fun x hx => ⟨(hVb x hx).2.2.1, (hVb x hx).2.2.2⟩),
    @pdecode_eq_self (numToString c.x ++ (',' :: numToString c.y))
      (fun x hx => ⟨(hVc x hx).2.2.1, (hVc x hx).2.2.2⟩)]

theorem urlGet_buildDisplayQuery (a b c : QPoint) :
    urlGet (buildDisplayQuery a b c) ['a']
        = some (numToString a.x ++ (',' :: numToString a.y)) ∧
    urlGet (buildDisplayQuery a b c) ['b']
        = some (numToString b.x ++ (',' :: numToString b.y)) ∧
    urlGet (buildDisplayQuery a b c) ['c']
        = some (numToString c.x ++ (',' :: numToString c.y)) := by
  unfold urlGet
  rw [urlPairs_buildDisplayQuery]
  exact ⟨rfl, rfl, rfl⟩

theorem comma_not_mem_numToString (q : ℚ) : (',' : Char) ∉ numToString q :=
  fun hmem => (plain_props (numToString_plain q ',' hmem)).2.2.2.2.2.1 rfl

theorem parsePoint_enc (s key : List Char) (x y : ℚ)
    (hget : urlGet s key = some (numToString x ++ (',' :: numToString y)))
    (hx : TerminatingDecimal x) (hy : TerminatingDecimal y) :
    parsePoint s key = some ⟨x, y⟩ := by
  unfold parsePoint
  rw [hget]
  dsimp only
  rw [if_neg (by simp)]
  rw [splitOnC_append (numToString y) (comma_not_mem_numToString x)]
  rw [splitOnC_of_not_mem (comma_not_mem_numToString y)]
  dsimp only
  rw [parseJSNumber_numToString x hx, parseJSNumber_numToString y hy]

/-- C1.  For points whose coordinates all have terminating decimal expansions
(as every finite double does), parsing the built display query recovers all
three keys with exactly the original points. -/
theorem parseDisplayQuery_buildDisplayQuery (a b c : QPoint)
    (hax : TerminatingDecimal a.x) (hay : TerminatingDecimal a.y)
    (hbx : TerminatingDecimal b.x) (hby : TerminatingDecimal b.y)
    (hcx : TerminatingDecimal c.x) (hcy : TerminatingDecimal c.y) :
    parseDisplayQuery (buildDisplayQuery a b c) = ⟨some a, some b, some c⟩ := by
  obtain ⟨hga, hgb, hgc⟩ := urlGet_buildDisplayQuery a b c
  unfold parseDisplayQuery
  rw [parsePoint_enc _ _ _ _ hga hax hay, parsePoint_enc _ _ _ _ hgb hbx hby,
    parsePoint_enc _ _ _ _ hgc hcx hcy]

/-- C1 witness: the round trip at the default triangle's coordinates. -/
theorem parseDisplayQuery_buildDisplayQuery_witness :
    TerminatingDecimal ((100 : ℚ)) ∧ TerminatingDecimal ((700 : ℚ)) ∧
    TerminatingDecimal ((120 : ℚ)) ∧ TerminatingDecimal ((420 : ℚ)) ∧
    TerminatingDecimal ((650 : ℚ)) ∧
    parseDisplayQuery (buildDisplayQuery ⟨100, 100⟩ ⟨700, 120⟩ ⟨420, 650⟩) =
      ⟨some ⟨100, 100⟩, some ⟨700, 120⟩, some ⟨420, 650⟩⟩ :=
  ⟨by simp [TerminatingDecimal], by simp [TerminatingDecimal],
    by simp [TerminatingDecimal], by simp [TerminatingDecimal],
    by simp [TerminatingDecimal],
    parseDisplayQuery_buildDisplayQuery ⟨100, 100⟩ ⟨700, 120⟩ ⟨420, 650⟩
      (by simp [TerminatingDecimal]) (by simp [TerminatingDecimal])
      (by simp [TerminatingDecimal]) (by simp [TerminatingDecimal])
      (by simp [TerminatingDecimal]) (by simp [TerminatingDecimal])⟩

theorem parsePoint_isSome_iff (s key : List Char) :
    (parsePoint s key).isSome = true ↔
      ∃ v, urlGet s key = some v ∧ v ≠ [] ∧
        ∃ xs ys rest, splitOnC ',' v = xs :: ys :: rest ∧
          (parseJSNumber xs).isSome = true ∧ (parseJSNumber ys).isSome = true := by
  constructor
  · intro h
    unfold parsePoint at h
    cases hget : urlGet s key with
    | none => rw [hget] at h; simp at h
    | some raw =>
      rw [hget] at h
      dsimp only at h
      by_cases hraw : raw = []
      · rw [if_pos hraw] at h; simp at h
      · rw [if_neg hraw] at h
        cases hsplit : splitOnC ',' raw with
        | nil => rw [hsplit] at h; simp at h
        | cons xs0 rest0 =>
          cases rest0 with
          | nil => rw [hsplit] at h; simp at h
          | cons ys0 rest1 =>
            rw [hsplit] at h
            dsimp only at h
            cases hpx : parseJSNumber xs0 with
            | none => rw [hpx] at h; simp at h
            | some xv =>
              cases hpy : parseJSNumber ys0 with
              | none => rw [hpx, hpy] at h; simp at h
              | some yv =>
                exact ⟨raw, rfl, hraw, xs0, ys0, rest1, hsplit,
                  by simp [hpx], by simp [hpy]⟩
  · rintro ⟨v, hget, hv, xs, ys, rest, hsplit, hxs, hys⟩
    unfold parsePoint
    rw [hget]
    dsimp only
    rw [if_neg hv, hsplit]
    dsimp only
    obtain ⟨xv, hxv⟩ := Option.isSome_iff_exists.1 hxs
    obtain ⟨yv, hyv⟩ := Option.isSome_iff_exists.1 hys
    rw [hxv, hyv]
    rfl

/-- C2, amended.  Each of the keys `a`, `b`, `c` is parsed independently and
tolerantly (the function is total — malformed input yields an absent point,
never an error): the key is present in the result exactly when the query
holds a non-empty value for it whose comma-split has at least two tokens and
whose first two tokens both coerce to finite numbers; any further tokens are
ignored. -/
theorem parseDisplayQuery_tolerant (s : List Char) :
    ((parseDisplayQuery s).a.isSome = true ↔
      ∃ v, urlGet s ['a'] = some v ∧ v ≠ [] ∧
        ∃ xs ys rest, splitOnC ',' v = xs :: ys :: rest ∧
          (parseJSNumber xs).isSome = true ∧ (parseJSNumber ys).isSome = true) ∧
    ((parseDisplayQuery s).b.isSome = true ↔
      ∃ v, urlGet s ['b'] = some v ∧ v ≠ [] ∧
        ∃ xs ys rest, splitOnC ',' v = xs :: ys :: rest ∧
          (parseJSNumber xs).isSome = true ∧ (parseJSNumber ys).isSome = true) ∧
    ((parseDisplayQuery s).c.isSome = true ↔
      ∃ v, urlGet s ['c'] = some v ∧ v ≠ [] ∧
        ∃ xs ys rest, splitOnC ',' v = xs :: ys :: rest ∧
          (parseJSNumber xs).isSome = true ∧ (parseJSNumber ys).isSome = true) :=
  ⟨parsePoint_isSome_iff s ['a'], parsePoint_isSome_iff s ['b'],
    parsePoint_isSome_iff s ['c']⟩

/-- C2, counterexample to the claim as stated.  The value `1,2,3` does not
split into exactly two comma-separated tokens (it has three), yet the key is
present: destructuring `raw.split(",")` uses only the first two tokens. -/
theorem parseDisplayQuery_claim_counterexample :
    (parseDisplayQuery ['?', 'a', '=', '1', ',', '2', ',', '3']).a
      = some ⟨1, 2⟩ ∧
    (splitOnC ',' ['1', ',', '2', ',', '3']).length = 3 := by
  constructor
  · show parsePoint ['?', 'a', '=', '1', ',', '2', ',', '3'] ['a'] = some ⟨1, 2⟩
    have hget : urlGet ['?', 'a', '=', '1', ',', '2', ',', '3'] ['a']
        = some ['1', ',', '2', ',', '3'] := by
      unfold urlGet urlPairs
      dsimp only
      rw [if_pos (show (['?', 'a', '=', '1', ',', '2', ',', '3'] : List Char).head?
        = some '?' from rfl)]
      rw [show (['?', 'a', '=', '1', ',', '2', ',', '3'] : List Char).tail
        = ['a', '=', '1', ',', '2', ',', '3'] from rfl]
      rw [show splitOnC '&' ['a', '=', '1', ',', '2', ',', '3']
        = [['a', '=', '1', ',', '2', ',', '3']] from rfl]
      simp only [List.filterMap_cons, List.filterMap_nil]
      rw [if_neg (by simp)]
      rw [show splitFirstEq ['a', '=', '1', ',', '2', ',', '3']
        = (['a'], ['1', ',', '2', ',', '3']) from rfl]
      dsimp only
      rw [@pdecode_eq_self ['a'] (by decide),
        @pdecode_eq_self ['1', ',', '2', ',', '3'] (by decide)]
      rfl
    have hp1 : parseJSNumber ['1'] = some ((1 : ℕ) : ℚ) := by
      unfold parseJSNumber
      rw [trimWS_eq_self (by decide), if_neg (by simp)]
      rw [parseSigned_of_digit_head
        (show (['1'] : List Char).head? = some '1' from rfl) (by decide)]
      unfold parseUnsigned
      rw [show takeDigits ['1'] = (['1'], ([] : List Char)) from rfl]
      dsimp only
      rw [if_pos rfl, if_neg (by simp)]
      rfl
    have hp2 : parseJSNumber ['2'] = some ((2 : ℕ) : ℚ) := by
      unfold parseJSNumber
      rw [trimWS_eq_self (by decide), if_neg (by simp)]
      rw [parseSigned_of_digit_head
        (show (['2'] : List Char).head? = some '2' from rfl) (by decide)]
      unfold parseUnsigned
      rw [show takeDigits ['2'] = (['2'], ([] : List Char)) from rfl]
      dsimp only
      rw [if_pos rfl, if_neg (by simp)]
      rfl
    unfold parsePoint
    rw [hget]
    dsimp only
    rw [if_neg (by simp)]
    rw [show splitOnC ',' ['1', ',', '2', ',', '3']
      = [['1'], ['2'], ['3']] from rfl]
    dsimp only
    rw [hp1, hp2]
    norm_num
  · rfl
